import Mathlib

/-!
Verification of the NPPES pharmacy pipeline (`nppes_pharmacy.py`) and the
Streamlit dashboard (`ui_app.py`).

Shallow embedding conventions:
* A pandas cell is `Cell := Option String`: `none` models the NaN null marker,
  `some s` a string value (all pipeline frames are read with `dtype=str`).
* A pandas row is an association list from column name to cell, keyed by the
  frame's columns; a DataFrame `DF` is its column list plus its row list.
* Fallible pandas calls (column selection that can raise `KeyError`) are
  modelled with `Option`.
-/

set_option autoImplicit false

namespace PharmacyNpi

abbrev Cell := Option String

abbrev Row := List (String × Cell)

/-- A pandas DataFrame: ordered column names and ordered rows. -/
structure DF where
  cols : List String
  rows : List Row
deriving Repr, DecidableEq

/-- Cell lookup, i.e. `row[col]`: the first binding of the column name wins. -/
def getCell : Row → String → Cell
  | [], _ => none
  | (k, v) :: r, c => if k = c then v else getCell r c

/-- String view of a cell, used by the dashboard whose frames are null-free
after `load_data`'s `fillna("")`. -/
def getStr (r : Row) (c : String) : String := (getCell r c).getD ""

/-- One cell of `fillna("")`: a null marker becomes the empty string. -/
def fillCell (c : Cell) : Cell := some (c.getD "")

/-- `fillna("")` on one row: every present cell is filled; the keys are kept. -/
def fillnaRow (r : Row) : Row := r.map (fun p => (p.1, fillCell p.2))

/-- `df.fillna("", inplace=True)`: fill every row, keep the columns. -/
def fillnaDF (df : DF) : DF := ⟨df.cols, df.rows.map fillnaRow⟩

/-- The fixed 11-column output schema `STANDARD_COLUMNS` of
`nppes_pharmacy.py` (also used verbatim by `ui_app.py`). -/
def STANDARD_COLUMNS : List String :=
  [ "NPI",
    "Provider Organization Name (Legal Business Name)",
    "Provider Other Organization Name_y",
    "Provider First Line Business Practice Location Address",
    "Provider Second Line Business Practice Location Address",
    "Provider Business Practice Location Address City Name",
    "Provider Business Practice Location Address State Name",
    "Provider Business Practice Location Address Postal Code",
    "Healthcare Provider Taxonomy Code_1",
    "Provider License Number_1",
    "Provider License Number State Code_1" ]

def NPI_COL : String := "NPI"

def ORG_COL : String := "Provider Other Organization Name"

def ORG_X_COL : String := "Provider Other Organization Name_x"

def ORG_Y_COL : String := "Provider Other Organization Name_y"

def LEGAL_COL : String := "Provider Organization Name (Legal Business Name)"

def ENTITY_COL : String := "Entity Type Code"

def DEACT_COL : String := "NPI Deactivation Date"

def TAX_COL : String := "Healthcare Provider Taxonomy Code_1"

/-- Python `str.strip` whitespace set (space, tab, LF, CR, VT, FF). -/
def pySpace (c : Char) : Bool :=
  [' ', '\t', '\n', '\r', '\x0b', '\x0c'].contains c

/-- Python `str.strip`: remove leading and trailing whitespace. -/
def pyStrip (s : String) : String :=
  String.mk (((s.toList.dropWhile pySpace).reverse.dropWhile pySpace).reverse)

/-- Lowercase one character as Python `str.lower` does on ASCII. -/
def pyLowerChar (c : Char) : Char :=
  if 'A' ≤ c ∧ c ≤ 'Z' then Char.ofNat (c.toNat + 32) else c

/-- Python `str.lower` (ASCII fragment; the data is ASCII CSV text). -/
def pyLower (s : String) : String := String.mk (s.toList.map pyLowerChar)

/-- First filter stage of `filter_npi_file`: `chunk['Entity Type Code'] == '2'`. -/
def entityPred (r : Row) : Bool := getCell r ENTITY_COL == some "2"

/-- Second filter stage: `chunk['NPI Deactivation Date'].str.strip() == ""`.
On a null cell pandas yields NaN, which is not `""`, hence `false`. -/
def deactPred (r : Row) : Bool := (getCell r DEACT_COL).map pyStrip == some ""

/-- Third filter stage:
`chunk['Healthcare Provider Taxonomy Code_1'].isin(taxonomy_codes)`.
`isin` on a null cell is `false`. -/
def taxPred (codes : List String) (r : Row) : Bool :=
  match getCell r TAX_COL with
  | some s => codes.contains s
  | none => false

/-- The per-chunk body of `filter_npi_file`: `fillna("")`, then the three
filters in source order, reporting the row count removed by each stage
(the `[DEBUG]` prints) together with the surviving rows. -/
def filterChunkReport (codes : List String) (chunk : List Row) :
    Nat × Nat × Nat × List Row :=
  let c0 := chunk.map fillnaRow
  let c1 := c0.filter entityPred
  let c2 := c1.filter deactPred
  let c3 := c2.filter (taxPred codes)
  (c0.length - c1.length, c1.length - c2.length, c2.length - c3.length, c3)

/-- The rows a chunk contributes after the three filters. -/
def filterChunk (codes : List String) (chunk : List Row) : List Row :=
  (filterChunkReport codes chunk).2.2.2

/-- Unchunked reference filter, following the spec's words: normalize missing
values, then apply the three predicates in order to the whole dataset. -/
def filterWholeDataset (codes : List String) (dataset : List Row) : List Row :=
  (((dataset.map fillnaRow).filter entityPred).filter deactPred).filter (taxPred codes)

/-- Chunking worker, structurally recursive on a fuel argument so that it
computes; the fuel is instantiated with the list length, which always
suffices because each step consumes at least the head. -/
def chunksOfAux {α : Type} (n : Nat) : Nat → List α → List (List α)
  | _, [] => []
  | 0, _ :: _ => []
  | fuel + 1, x :: xs => (x :: xs).take n :: chunksOfAux n fuel (xs.drop (n - 1))

/-- Consecutive chunks of size `n`, as `pd.read_csv(..., chunksize=n)` yields
them: for `n ≥ 1`,
`chunksOf n (x :: xs) = (x :: xs).take n :: chunksOf n ((x :: xs).drop n)`. -/
def chunksOf {α : Type} (n : Nat) (xs : List α) : List (List α) :=
  chunksOfAux n xs.length xs

/-- `filter_npi_file`: stream the dataset in chunks, filter each, keep the
non-empty filtered chunks, and either concatenate them (keeping the input's
columns) or, if none survived, return an empty frame over `STANDARD_COLUMNS`. -/
def filter_npi_file (inputCols codes : List String) (chunksize : Nat)
    (dataset : List Row) : DF :=
  let kept := ((chunksOf chunksize dataset).map (filterChunk codes)).filter
    (fun c => !c.isEmpty)
  if kept.isEmpty then ⟨STANDARD_COLUMNS, []⟩ else ⟨inputCols, kept.flatten⟩

/-- Whether `filtered_df` has a `'Provider Other Organization Name'` column,
in which case `pd.merge` suffixes the overlapping column names. -/
def collideOf (filtered : DF) : Bool := filtered.cols.contains ORG_COL

/-- Column renaming `pd.merge` applies to the left frame: on overlap the
left copy of the alternate-name column gets the `_x` suffix. -/
def leftOut (collide : Bool) (c : String) : String :=
  if collide && c == ORG_COL then ORG_X_COL else c

/-- Name of the right frame's alternate-name column in the merged frame:
suffixed `_y` on overlap, unchanged otherwise. -/
def rightNameOf (collide : Bool) : String :=
  if collide then ORG_Y_COL else ORG_COL

/-- The explicit rename of line 170:
`merged.rename(columns={'Provider Other Organization Name': '..._y'})`. -/
def renY (c : String) : String := if c == ORG_COL then ORG_Y_COL else c

/-- The key/value projection `othername_df[['NPI', 'Provider Other
Organization Name']]` of the (already filled) alternate-name frame. -/
def rightPairsOf (othername : DF) : List (Cell × Cell) :=
  (fillnaDF othername).rows.map (fun r => (getCell r NPI_COL, getCell r ORG_COL))

/-- Left-join expansion of one filtered row, as `pd.merge(..., how='left')`
produces it: one output row per matching right row (in right order), or a
single row with a null alternate name when nothing matches. -/
def joinRow (pairs : List (Cell × Cell)) (collide : Bool) (lr : Row) : List Row :=
  let hits := pairs.filter (fun p => p.1 == getCell lr NPI_COL)
  let lrOut := lr.map (fun p => (leftOut collide p.1, p.2))
  if hits.isEmpty then [lrOut ++ [(rightNameOf collide, none)]]
  else hits.map (fun p => lrOut ++ [(rightNameOf collide, p.2)])

/-- Projection into the fixed schema: the loop synthesizing every missing
`STANDARD_COLUMNS` column as `""` followed by `merged[STANDARD_COLUMNS]`. -/
def projectRow (mcols : List String) (r : Row) : Row :=
  STANDARD_COLUMNS.map (fun c => (c, if mcols.contains c then getCell r c else some ""))

/-- The merge body after the column-presence check: left join, `_y` rename,
synthesis of missing standard columns, and projection to `STANDARD_COLUMNS`. -/
def mergeCore (filtered : DF) (pairs : List (Cell × Cell)) : DF :=
  let collide := collideOf filtered
  let mergedCols := filtered.cols.map (leftOut collide) ++ [rightNameOf collide]
  let mergedRows := filtered.rows.flatMap (joinRow pairs collide)
  let cols2 := mergedCols.map renY
  let rows2 := mergedRows.map (fun r => r.map (fun p => (renY p.1, p.2)))
  ⟨STANDARD_COLUMNS, rows2.map (projectRow cols2)⟩

/-- `merge_othername`: fill the alternate-name frame, select its key and name
columns (`KeyError`, modelled as `none`, if either is absent), left-join the
filtered frame against them, and project to the fixed schema. -/
def merge_othername (filtered : DF) (othername : DF) : Option DF :=
  if othername.cols.contains NPI_COL && othername.cols.contains ORG_COL then
    some (mergeCore filtered (rightPairsOf othername))
  else
    none

/-- Observable effects of one pipeline run past the filtering stage. -/
structure RunOutcome where
  outputWritten : Bool
  archived : Bool
deriving Repr, DecidableEq

/-- The tail of `main` after the input files are located: filter, stop
early (no write, no archival) on an empty filter result, otherwise merge,
write the dated output file, then archive the inputs; a merge exception
aborts before writing or archiving. -/
def mainProcess (inputCols codes : List String) (chunksize : Nat)
    (dataset : List Row) (othername : DF) : RunOutcome :=
  let filtered := filter_npi_file inputCols codes chunksize dataset
  if filtered.rows.isEmpty then ⟨false, false⟩
  else
    match merge_othername filtered othername with
    | some _ => ⟨true, true⟩
    | none => ⟨false, false⟩

/-- Regex token for the fragment of Python `re` patterns this development
needs: literal characters and the `.` wildcard. -/
inductive RTok where
  | lit : Char → RTok
  | dot : RTok
deriving Repr, DecidableEq

/-- Compile a pattern string into tokens: `.` is the any-character wildcard,
every other character a literal. Faithful to Python `re` for patterns with no
metacharacter other than `.` (the fragment the claims exercise). -/
def tokenize (s : List Char) : List RTok :=
  s.map (fun c => if c = '.' then RTok.dot else RTok.lit c)

/-- Match a token pattern against the beginning of a string. -/
def tokHere : List RTok → List Char → Bool
  | [], _ => true
  | _ :: _, [] => false
  | RTok.dot :: ts, _ :: cs => tokHere ts cs
  | RTok.lit a :: ts, c :: cs => a == c && tokHere ts cs

/-- Python `re.search` on the modelled fragment: try the pattern at every
position. This is the semantics of `Series.str.contains` (regex=True). -/
def reSearch (p : List RTok) : List Char → Bool
  | [] => tokHere p []
  | c :: cs => tokHere p (c :: cs) || reSearch p cs

/-- Match a literal character sequence against the beginning of a string. -/
def litHere : List Char → List Char → Bool
  | [], _ => true
  | _ :: _, [] => false
  | a :: as, b :: bs => a == b && litHere as bs

/-- Literal substring occurrence, following the spec's words: the term occurs
as a contiguous run of characters somewhere in the string. -/
def litOccurs (p : List Char) : List Char → Bool
  | [] => litHere p []
  | c :: cs => litHere p (c :: cs) || litOccurs p cs

/-- Python `re` metacharacters (brace characters written via their codes). -/
def isReMeta (c : Char) : Bool :=
  ['.', '^', '$', '*', '+', '?', '[', ']', '\\', '|', '(', ')'].contains c
    || c.toNat == 123 || c.toNat == 125

/-- The dashboard's free-text filter (`ui_app.py` lines 110-115): skipped for
blank input (`if search_term.strip():`), otherwise keep the rows where the
lowercased term regex-matches the lowercased legal or alternate name. -/
def searchFilter (searchTerm : String) (rows : List Row) : List Row :=
  if (pyStrip searchTerm).isEmpty then rows
  else
    let term := tokenize (pyLower searchTerm).toList
    rows.filter (fun r =>
      reSearch term (pyLower (getStr r LEGAL_COL)).toList
        || reSearch term (pyLower (getStr r ORG_Y_COL)).toList)

/-- One Group Registry row of `group_pharmacies.csv`. -/
structure GroupRow where
  groupName : String
  npi : String
  pharmacyName : String
  startDate : String
  endDate : String
deriving Repr, DecidableEq

/-- The add-to-group action: `pd.concat([existing_df, new_entries])`. -/
def appendEntries (registry newEntries : List GroupRow) : List GroupRow :=
  registry ++ newEntries

/-- The delete action: `groups_df[~groups_df['NPI'].isin(delete_npis)]`. -/
def deleteByNpi (registry : List GroupRow) (npis : List String) : List GroupRow :=
  registry.filter (fun r => !npis.contains r.npi)

/-- The edit-dates action: the two `groups_df.loc[isin(edit_npis), ...]`
assignments, setting start and end dates of every selected row. -/
def editDates (registry : List GroupRow) (npis : List String) (s e : String) :
    List GroupRow :=
  registry.map (fun r =>
    if npis.contains r.npi then { r with startDate := s, endDate := e } else r)

/-! Fixtures used by witnesses and counterexamples. -/

/-- A four-row batch exercising all three filter stages. -/
def chunkW : List Row :=
  [ [(ENTITY_COL, some "2"), (DEACT_COL, some " "), (TAX_COL, some "T1")],
    [(ENTITY_COL, some "1"), (DEACT_COL, some ""), (TAX_COL, some "T1")],
    [(ENTITY_COL, some "2"), (DEACT_COL, none), (TAX_COL, some "T2")],
    [(ENTITY_COL, some "2"), (DEACT_COL, some "2020-01-31"), (TAX_COL, some "T1")] ]

/-- A one-row filtered frame. -/
def rowF : Row := [(NPI_COL, some "1"), (LEGAL_COL, some "Acme")]

/-- A filtered frame with a single record, identifier `"1"`. -/
def dfF : DF := ⟨[NPI_COL, LEGAL_COL], [rowF]⟩

/-- An alternate-name frame with one matching record. -/
def dfO : DF :=
  ⟨[NPI_COL, ORG_COL], [[(NPI_COL, some "1"), (ORG_COL, some "Acme Pharmacy")]]⟩

/-- The same alternate-name data as `dfO` with the columns in the other
order: it agrees with `dfO` on the identifier and alternate-name columns. -/
def dfO2 : DF :=
  ⟨[ORG_COL, NPI_COL], [[(ORG_COL, some "Acme Pharmacy"), (NPI_COL, some "1")]]⟩

/-- An alternate-name frame with a duplicated identifier. -/
def dupO : DF :=
  ⟨[NPI_COL, ORG_COL],
    [[(NPI_COL, some "1"), (ORG_COL, some "A")],
     [(NPI_COL, some "1"), (ORG_COL, some "B")]]⟩

/-- An alternate-name frame with the right columns and no rows, so no
filtered record finds a match. -/
def emptyO : DF := ⟨[NPI_COL, ORG_COL], []⟩

/-! Helper lemmas about the record filter. -/

theorem filterChunk_append (codes : List String) (as bs : List Row) :
    filterChunk codes (as ++ bs) = filterChunk codes as ++ filterChunk codes bs := by
  simp [filterChunk, filterChunkReport, List.filter_append]

theorem flatten_map_filterChunk (codes : List String) :
    ∀ l : List (List Row),
      (l.map (filterChunk codes)).flatten = filterChunk codes l.flatten
  | [] => rfl
  | c :: t => by
    simp only [List.map_cons, List.flatten_cons, filterChunk_append,
      flatten_map_filterChunk codes t]

theorem flatten_filter_nonempty :
    ∀ l : List (List Row), (l.filter (fun c => !c.isEmpty)).flatten = l.flatten
  | [] => rfl
  | c :: t => by
    by_cases hc : c.isEmpty
    · have hce : c = [] := List.isEmpty_iff.mp hc
      simp [List.filter_cons, hc, hce, flatten_filter_nonempty t]
    · simp [List.filter_cons, hc, flatten_filter_nonempty t]

theorem chunksOfAux_flatten {α : Type} (n : Nat) (hn : 0 < n) :
    ∀ (fuel : Nat) (xs : List α), xs.length ≤ fuel →
      (chunksOfAux n fuel xs).flatten = xs
  | fuel, [], _ => by cases fuel <;> rfl
  | 0, x :: xs, h => by simp at h
  | fuel + 1, x :: xs, h => by
    have hlen : (xs.drop (n - 1)).length ≤ fuel := by
      simp only [List.length_drop]
      simp only [List.length_cons] at h
      omega
    have ih := chunksOfAux_flatten n hn fuel (xs.drop (n - 1)) hlen
    obtain ⟨m, rfl⟩ : ∃ m, n = m + 1 := ⟨n - 1, by omega⟩
    simp only [Nat.add_sub_cancel] at ih
    simp only [chunksOfAux, List.flatten_cons, ih, Nat.add_sub_cancel,
      List.take_succ_cons, List.cons_append, List.take_append_drop]

theorem chunksOf_flatten {α : Type} (n : Nat) (hn : 0 < n) (xs : List α) :
    (chunksOf n xs).flatten = xs :=
  chunksOfAux_flatten n hn xs.length xs (Nat.le_refl _)

/-- The rows `filter_npi_file` returns are exactly the three filters applied
to the whole dataset, for every positive chunk size. -/
theorem filter_npi_file_rows (inputCols codes : List String) {n : Nat}
    (hn : 0 < n) (dataset : List Row) :
    (filter_npi_file inputCols codes n dataset).rows = filterChunk codes dataset := by
  have key : (((chunksOf n dataset).map (filterChunk codes)).filter
      (fun c => !c.isEmpty)).flatten = filterChunk codes dataset := by
    rw [flatten_filter_nonempty, flatten_map_filterChunk,
      chunksOf_flatten n hn dataset]
  simp only [filter_npi_file]
  split
  · next h =>
    have hnil := List.isEmpty_iff.mp h
    rw [← key, hnil]
    rfl
  · exact key

/-- C3: for every input batch, the filter normalizes missing values first and
applies the three predicates in order entity-type, deactivation, taxonomy;
the three per-stage removal counts plus the survivor count sum to the batch
size. -/
theorem filter_stage_counts (codes : List String) (chunk : List Row) :
    (filterChunkReport codes chunk).1 + (filterChunkReport codes chunk).2.1
        + (filterChunkReport codes chunk).2.2.1
        + ((filterChunkReport codes chunk).2.2.2).length = chunk.length
      ∧ (filterChunkReport codes chunk).2.2.2
          = (((chunk.map fillnaRow).filter entityPred).filter deactPred).filter
              (taxPred codes) := by
  refine ⟨?_, rfl⟩
  have h0 : (chunk.map fillnaRow).length = chunk.length := List.length_map _ _
  have h1 : ((chunk.map fillnaRow).filter entityPred).length
      ≤ (chunk.map fillnaRow).length := List.length_filter_le _ _
  have h2 : (((chunk.map fillnaRow).filter entityPred).filter deactPred).length
      ≤ ((chunk.map fillnaRow).filter entityPred).length := List.length_filter_le _ _
  have h3 : ((((chunk.map fillnaRow).filter entityPred).filter deactPred).filter
        (taxPred codes)).length
      ≤ (((chunk.map fillnaRow).filter entityPred).filter deactPred).length :=
    List.length_filter_le _ _
  simp only [filterChunkReport]
  omega

/-- C4: for every positive batch size, the chunked filter produces exactly
the rows of the unchunked filter, in the same order. -/
theorem chunked_filter_eq_unchunked (inputCols codes : List String) (n : Nat)
    (dataset : List Row) (hn : 0 < n) :
    (filter_npi_file inputCols codes n dataset).rows
      = filterWholeDataset codes dataset :=
  filter_npi_file_rows inputCols codes hn dataset

/-- Witness for `chunked_filter_eq_unchunked` at chunk size 3 on a concrete
four-row dataset. -/
theorem chunked_filter_eq_unchunked_witness :
    (filter_npi_file ["NPI"] ["T1"] 3 chunkW).rows
      = filterWholeDataset ["T1"] chunkW :=
  chunked_filter_eq_unchunked ["NPI"] ["T1"] 3 chunkW (by decide)

/-- C10: when every batch filters to nothing, the returned empty frame
carries exactly the 11 standard output columns, not the input's columns. -/
theorem filter_empty_has_standard_schema (inputCols codes : List String)
    (n : Nat) (dataset : List Row)
    (h : ∀ c ∈ chunksOf n dataset, filterChunk codes c = []) :
    filter_npi_file inputCols codes n dataset = ⟨STANDARD_COLUMNS, []⟩ := by
  have hk : ((chunksOf n dataset).map (filterChunk codes)).filter
      (fun c => !c.isEmpty) = [] := by
    rw [List.filter_eq_nil_iff]
    intro a ha
    obtain ⟨c, hc, rfl⟩ := List.mem_map.mp ha
    simp [h c hc]
  simp [filter_npi_file, hk]

/-- Witness for `filter_empty_has_standard_schema`: an empty whitelist keeps
no record, and the resulting empty frame has the standard schema. -/
theorem filter_empty_has_standard_schema_witness :
    filter_npi_file ["NPI"] [] 2 chunkW = ⟨STANDARD_COLUMNS, []⟩ :=
  filter_empty_has_standard_schema ["NPI"] [] 2 chunkW (by decide)

/-- C5: when zero records survive the three filters across the whole stream,
the pipeline stops without writing the output file and without archiving. -/
theorem empty_filter_stops_pipeline (inputCols codes : List String) (n : Nat)
    (dataset : List Row) (othername : DF) (hn : 0 < n)
    (h : filterWholeDataset codes dataset = []) :
    mainProcess inputCols codes n dataset othername = ⟨false, false⟩ := by
  have hr : (filter_npi_file inputCols codes n dataset).rows = [] := by
    rw [filter_npi_file_rows inputCols codes hn dataset]
    exact h
  simp [mainProcess, hr]

/-- Witness for `empty_filter_stops_pipeline` on a concrete dataset with an
empty taxonomy whitelist. -/
theorem empty_filter_stops_pipeline_witness :
    mainProcess ["NPI"] [] 2 chunkW ⟨[NPI_COL, ORG_COL], []⟩ = ⟨false, false⟩ :=
  empty_filter_stops_pipeline ["NPI"] [] 2 chunkW ⟨[NPI_COL, ORG_COL], []⟩
    (by decide) (by decide)

/-! Helper lemmas about cell lookup and the merge. -/

theorem getCell_append_left {a : Row} (b : Row) {c : String}
    (h : c ∈ a.map Prod.fst) : getCell (a ++ b) c = getCell a c := by
  induction a with
  | nil => simp at h
  | cons p t ih =>
    obtain ⟨k, v⟩ := p
    by_cases hkc : k = c
    · simp [getCell, hkc]
    · simp only [List.map_cons, List.mem_cons] at h
      rcases h with h | h

      · exact absurd h.symm hkc
      · simp [getCell, hkc, ih h]

theorem getCell_append_right {a : Row} (b : Row) {c : String}
    (h : c ∉ a.map Prod.fst) : getCell (a ++ b) c = getCell b c := by
  induction a with
  | nil => rfl
  | cons p t ih =>
    obtain ⟨k, v⟩ := p
    simp only [List.map_cons, List.mem_cons, not_or] at h
    simp [getCell, Ne.symm h.1, ih h.2]

theorem getCell_ne_none {r : Row} {c : String}
    (hv : ∀ p ∈ r, p.2 ≠ none) (h : c ∈ r.map Prod.fst) : getCell r c ≠ none := by
  induction r with
  | nil => simp at h
  | cons p t ih =>
    obtain ⟨k, v⟩ := p
    by_cases hkc : k = c
    · simpa [getCell, hkc] using hv (k, v) (by simp)
    · simp only [List.map_cons, List.mem_cons] at h
      rcases h with h | h
      · exact absurd h.symm hkc
      · simpa [getCell, hkc] using ih (fun p hp => hv p (by simp [hp])) h

theorem getCell_fillnaRow {r : Row} {c : String} (h : c ∈ r.map Prod.fst) :
    getCell (fillnaRow r) c = fillCell (getCell r c) := by
  induction r with
  | nil => simp at h
  | cons p t ih =>
    obtain ⟨k, v⟩ := p
    by_cases hkc : k = c
    · simp [fillnaRow, getCell, hkc]
    · simp only [List.map_cons, List.mem_cons] at h
      rcases h with h | h
      · exact absurd h.symm hkc
      · simpa [fillnaRow, getCell, hkc] using ih h

theorem renY_rightNameOf (collide : Bool) :
    renY (rightNameOf collide) = ORG_Y_COL := by
  cases collide <;> rfl

/-- Every row the left join produces for `lr` is `lr` (keys renamed) with one
alternate-name cell appended. -/
theorem mem_joinRow {pairs : List (Cell × Cell)} {collide : Bool} {lr r1 : Row}
    (h : r1 ∈ joinRow pairs collide lr) :
    ∃ v : Cell,
      r1 = lr.map (fun p => (leftOut collide p.1, p.2))
        ++ [(rightNameOf collide, v)] := by
  simp only [joinRow] at h
  split at h
  · exact ⟨none, by simpa using h⟩
  · obtain ⟨p, _, hp⟩ := List.mem_map.mp h
    exact ⟨p.2, hp.symm⟩

/-- With pairwise distinct keys, at most one pair survives the key filter. -/
theorem filter_key_len_le_one {pairs : List (Cell × Cell)}
    (h : (pairs.map Prod.fst).Nodup) (k : Cell) :
    (pairs.filter (fun p => p.1 == k)).length ≤ 1 := by
  induction pairs with
  | nil => simp
  | cons p t ih =>
    simp only [List.map_cons, List.nodup_cons] at h
    by_cases hpk : p.1 == k
    · have hk : p.1 = k := eq_of_beq hpk
      have ht : t.filter (fun q => q.1 == k) = [] := by
        rw [List.filter_eq_nil_iff]
        intro q hq
        have : q.1 ≠ p.1 := fun he => h.1 (he ▸ List.mem_map_of_mem Prod.fst hq)
        simp [hk ▸ this]
      simp [List.filter_cons, hpk, ht]
    · simpa [List.filter_cons, hpk] using ih h.2

/-- With pairwise distinct right keys, the left join keeps each left row
exactly once. -/
theorem joinRow_length {pairs : List (Cell × Cell)} {collide : Bool}
    (h : (pairs.map Prod.fst).Nodup) (lr : Row) :
    (joinRow pairs collide lr).length = 1 := by
  simp only [joinRow]
  split
  · rfl
  · next he =>
    have h1 : (pairs.filter (fun p => p.1 == getCell lr NPI_COL)).length ≤ 1 :=
      filter_key_len_le_one h _
    have hne : pairs.filter (fun p => p.1 == getCell lr NPI_COL) ≠ [] :=
      fun hnil => he (by simp [hnil])
    have h2 : (pairs.filter (fun p => p.1 == getCell lr NPI_COL)).length ≠ 0 :=
      fun h0 => hne (List.length_eq_zero.mp h0)
    simp only [List.length_map]
    omega

theorem flatMap_length_one {α β : Type} {l : List α} {f : α → List β}
    (h : ∀ a ∈ l, (f a).length = 1) : (l.flatMap f).length = l.length := by
  induction l with
  | nil => rfl
  | cons a t ih =>
    have ha := h a (by simp)
    have ht := ih (fun b hb => h b (by simp [hb]))
    simp only [List.flatMap_cons, List.length_append, List.length_cons, ha, ht]
    omega

/-- C1 (amended): the merge drops no filtered record, and when the
alternate-name source has pairwise distinct identifiers the output row count
equals the filtered row count exactly. Duplicate identifiers instead
multiply the matching record, one output row per match. -/
theorem merge_preserves_rowcount (filtered othername : DF)
    (hN : othername.cols.contains NPI_COL = true)
    (hP : othername.cols.contains ORG_COL = true)
    (hnd : ((rightPairsOf othername).map Prod.fst).Nodup) :
    (merge_othername filtered othername).map (fun m => m.rows.length)
      = some filtered.rows.length := by
  simp only [merge_othername, hN, hP, Bool.and_self, if_true, Option.map_some']
  simp only [mergeCore, List.length_map]
  exact congrArg some (flatMap_length_one (fun lr _ => joinRow_length hnd lr))

/-- Witness for `merge_preserves_rowcount` on a concrete one-row frame and a
duplicate-free alternate-name source. -/
theorem merge_preserves_rowcount_witness :
    (merge_othername dfF dfO).map (fun m => m.rows.length)
      = some dfF.rows.length :=
  merge_preserves_rowcount dfF dfO (by decide) (by decide) (by decide)

/-- Counterexample to C1 as stated: a duplicated identifier in the
alternate-name source turns one filtered record into two output rows. -/
theorem merge_duplicate_identifiers_cex :
    (merge_othername dfF dupO).map (fun m => m.rows.length) = some 2
      ∧ dfF.rows.length = 1 := by
  decide

theorem projectRow_keys (mcols : List String) (r : Row) :
    (projectRow mcols r).map Prod.fst = STANDARD_COLUMNS := by
  simp only [projectRow, List.map_map]
  exact List.map_id _

/-- C2 (amended): every row the merge produces has exactly the 11 fixed
columns in the fixed order, and the only cell that can hold a null marker is
the alternate-name column (it does so exactly for records with no
alternate-name match; every column absent from the joined result is
synthesized as the empty string). Stated for filtered frames whose rows are
keyed by their columns and null-free, as `filter_npi_file` produces them,
and which do not already use the reserved `_y` output column name. -/
theorem merge_schema_and_nulls (filtered othername m : DF)
    (hwf : ∀ r ∈ filtered.rows, r.map Prod.fst = filtered.cols)
    (hnn : ∀ r ∈ filtered.rows, ∀ p ∈ r, p.2 ≠ none)
    (_hy : filtered.cols.contains ORG_Y_COL = false)
    (hN : othername.cols.contains NPI_COL = true)
    (hP : othername.cols.contains ORG_COL = true)
    (hm : merge_othername filtered othername = some m) :
    m.cols = STANDARD_COLUMNS
      ∧ ∀ r ∈ m.rows,
          r.map Prod.fst = STANDARD_COLUMNS
            ∧ ∀ p ∈ r, p.2 = none → p.1 = ORG_Y_COL := by
  simp only [merge_othername, hN, hP, Bool.and_self, if_true,
    Option.some.injEq] at hm
  subst hm
  refine ⟨rfl, ?_⟩
  intro r hr
  simp only [mergeCore] at hr
  obtain ⟨r2, hr2, rfl⟩ := List.mem_map.mp hr
  refine ⟨projectRow_keys _ _, ?_⟩
  obtain ⟨r1, hr1, rfl⟩ := List.mem_map.mp hr2
  obtain ⟨lr, hlr, hjoin⟩ := List.mem_flatMap.mp hr1
  obtain ⟨v, rfl⟩ := mem_joinRow hjoin
  intro p hp hpnone
  obtain ⟨c, hc, rfl⟩ := List.mem_map.mp hp
  simp only at hpnone ⊢
  set collide := collideOf filtered with hcol
  -- the renamed joined row: renamed left cells, then the alternate-name cell
  have hrow : (lr.map (fun p => (leftOut collide p.1, p.2))
        ++ [(rightNameOf collide, v)]).map (fun p => (renY p.1, p.2))
      = lr.map (fun p => (renY (leftOut collide p.1), p.2)) ++ [(ORG_Y_COL, v)] := by
    simp [List.map_append, List.map_map, renY_rightNameOf, Function.comp]
  -- the renamed merged columns
  have hcols2 : (filtered.cols.map (leftOut collide) ++ [rightNameOf collide]).map renY
      = filtered.cols.map (fun d => renY (leftOut collide d)) ++ [ORG_Y_COL] := by
    simp [List.map_append, List.map_map, renY_rightNameOf, Function.comp]
  rw [hrow, hcols2] at hpnone
  by_cases hcc : (filtered.cols.map (fun d => renY (leftOut collide d))
      ++ [ORG_Y_COL]).contains c
  · rw [if_pos hcc] at hpnone
    have hmem : c ∈ filtered.cols.map (fun d => renY (leftOut collide d))
        ∨ c = ORG_Y_COL := by
      simpa using hcc
    rcases hmem with hmem | hmem
    · -- the cell comes from the (null-free) left row: contradiction
      exfalso
      have hkeys : (lr.map (fun p : String × Cell
            => (renY (leftOut collide p.1), p.2))).map Prod.fst
          = filtered.cols.map (fun d => renY (leftOut collide d)) := by
        rw [← hwf lr hlr, List.map_map, List.map_map]
        rfl
      have hcmem : c ∈ (lr.map (fun p : String × Cell
          => (renY (leftOut collide p.1), p.2))).map Prod.fst := by
        rw [hkeys]; exact hmem
      have hvnn : ∀ q ∈ lr.map (fun p : String × Cell
          => (renY (leftOut collide p.1), p.2)), q.2 ≠ none := by
        intro q hq
        obtain ⟨p0, hp0, rfl⟩ := List.mem_map.mp hq
        exact hnn lr hlr p0 hp0
      rw [getCell_append_left _ hcmem] at hpnone
      exact getCell_ne_none hvnn hcmem hpnone
    · exact hmem
  · rw [if_neg hcc] at hpnone
    exact absurd hpnone (by simp)

/-- Witness for `merge_schema_and_nulls` on the concrete one-row frames. -/
theorem merge_schema_and_nulls_witness :
    (mergeCore dfF (rightPairsOf dfO)).cols = STANDARD_COLUMNS
      ∧ ∀ r ∈ (mergeCore dfF (rightPairsOf dfO)).rows,
          r.map Prod.fst = STANDARD_COLUMNS
            ∧ ∀ p ∈ r, p.2 = none → p.1 = ORG_Y_COL :=
  merge_schema_and_nulls dfF dfO (mergeCore dfF (rightPairsOf dfO))
    (by decide) (by decide) (by decide) (by decide) (by decide) rfl

/-- Counterexample to C2 as stated: a filtered record with no alternate-name
match gets the null marker, not the empty string, in the alternate-name
column of the merged frame. -/
theorem merge_null_marker_cex :
    (merge_othername dfF emptyO).map
        (fun m => m.rows.map (fun r => getCell r ORG_Y_COL))
      = some [none] := by
  decide

/-- C9: the merge reads the alternate-name source only through its
identifier and alternate-organization-name columns: two sources agreeing on
those two columns row for row produce identical merge output. Stated for
sources whose rows are keyed by their columns, as `pd.read_csv` yields them. -/
theorem merge_depends_only_on_name_cols (filtered o1 o2 : DF)
    (hwf1 : ∀ r ∈ o1.rows, r.map Prod.fst = o1.cols)
    (hwf2 : ∀ r ∈ o2.rows, r.map Prod.fst = o2.cols)
    (hN1 : o1.cols.contains NPI_COL = true)
    (hP1 : o1.cols.contains ORG_COL = true)
    (hN2 : o2.cols.contains NPI_COL = true)
    (hP2 : o2.cols.contains ORG_COL = true)
    (hagree : o1.rows.map (fun r => (getCell r NPI_COL, getCell r ORG_COL))
      = o2.rows.map (fun r => (getCell r NPI_COL, getCell r ORG_COL))) :
    merge_othername filtered o1 = merge_othername filtered o2 := by
  have key : ∀ o : DF, (∀ r ∈ o.rows, r.map Prod.fst = o.cols) →
      o.cols.contains NPI_COL = true → o.cols.contains ORG_COL = true →
      rightPairsOf o
        = (o.rows.map (fun r => (getCell r NPI_COL, getCell r ORG_COL))).map
            (fun q => (fillCell q.1, fillCell q.2)) := by
    intro o hwf hN hP
    simp only [rightPairsOf, fillnaDF, List.map_map]
    apply List.map_congr_left
    intro r hr
    have hkeys := hwf r hr
    have hNmem : NPI_COL ∈ r.map Prod.fst := by rw [hkeys]; simpa using hN
    have hPmem : ORG_COL ∈ r.map Prod.fst := by rw [hkeys]; simpa using hP
    simp [Function.comp, getCell_fillnaRow hNmem, getCell_fillnaRow hPmem]
  simp only [merge_othername, hN1, hP1, hN2, hP2, Bool.and_self, if_true]
  rw [key o1 hwf1 hN1 hP1, key o2 hwf2 hN2 hP2, hagree]

/-- Witness for `merge_depends_only_on_name_cols`: the same alternate-name
data presented with its columns in either order merges identically. -/
theorem merge_depends_only_on_name_cols_witness :
    merge_othername dfF dfO = merge_othername dfF dfO2 :=
  merge_depends_only_on_name_cols dfF dfO dfO2 (by decide) (by decide)
    (by decide) (by decide) (by decide) (by decide) (by decide)

/-- A dashboard row whose names contain no `.` character. -/
def rowC6 : Row := [(LEGAL_COL, some "AB"), (ORG_Y_COL, some "CD")]

/-- A dashboard row with ordinary alphabetic names. -/
def rowS : Row := [(LEGAL_COL, some "Acme Corp"), (ORG_Y_COL, some "Acme Pharmacy")]

/-! Helper lemmas about the search model. -/

theorem tokHere_all_lit {p : List Char} (h : ∀ c ∈ p, c ≠ '.') :
    ∀ s, tokHere (tokenize p) s = litHere p s := by
  induction p with
  | nil => intro s; rfl
  | cons a as ih =>
    intro s
    have ha : a ≠ '.' := h a (by simp)
    have hrest : ∀ c ∈ as, c ≠ '.' := fun c hc => h c (by simp [hc])
    have hstep : tokenize (a :: as) = RTok.lit a :: tokenize as := by
      simp [tokenize, ha]
    cases s with
    | nil => rw [hstep]; rfl
    | cons b bs =>
      rw [hstep]
      simp [tokHere, litHere, ih hrest bs]

theorem reSearch_all_lit {p : List Char} (h : ∀ c ∈ p, c ≠ '.') :
    ∀ s, reSearch (tokenize p) s = litOccurs p s := by
  intro s
  induction s with
  | nil => simp [reSearch, litOccurs, tokHere_all_lit h]
  | cons c cs ih => simp [reSearch, litOccurs, tokHere_all_lit h, ih]

theorem litHere_iff (p : List Char) : ∀ s, litHere p s = true ↔ ∃ t, p ++ t = s := by
  induction p with
  | nil => intro s; simp [litHere]
  | cons a as ih =>
    intro s
    cases s with
    | nil => simp [litHere]
    | cons b bs =>
      simp only [litHere, Bool.and_eq_true, beq_iff_eq, ih bs, List.cons_append,
        List.cons.injEq]
      constructor
      · rintro ⟨rfl, t, rfl⟩
        exact ⟨t, rfl, rfl⟩
      · rintro ⟨t, rfl, rfl⟩
        exact ⟨rfl, t, rfl⟩

theorem litOccurs_iff (p : List Char) :
    ∀ s, litOccurs p s = true ↔ ∃ u t, u ++ p ++ t = s := by
  intro s
  induction s with
  | nil =>
    simp only [litOccurs, litHere_iff]
    constructor
    · rintro ⟨t, ht⟩
      exact ⟨[], t, by simpa using ht⟩
    · rintro ⟨u, t, hut⟩
      rcases List.append_eq_nil.mp hut with ⟨hup, rfl⟩
      rcases List.append_eq_nil.mp hup with ⟨rfl, rfl⟩
      exact ⟨[], rfl⟩
  | cons c cs ih =>
    simp only [litOccurs, Bool.or_eq_true, litHere_iff, ih]
    constructor
    · rintro (⟨t, ht⟩ | ⟨u, t, ht⟩)
      · exact ⟨[], t, by simpa using ht⟩
      · exact ⟨c :: u, t, by simp [List.cons_append, ht]⟩
    · rintro ⟨u, t, hut⟩
      cases u with
      | nil =>
        left
        exact ⟨t, by simpa using hut⟩
      | cons d ds =>
        right
        simp only [List.cons_append, List.cons.injEq] at hut
        exact ⟨ds, t, hut.2⟩

/-- C6 (amended): for every non-blank search term free of regex
metacharacters, the dashboard filter keeps exactly the rows where the
lowercased term occurs as a literal contiguous substring of the lowercased
legal name or alternate name; `litOccurs` means exactly literal substring
occurrence. (Terms are interpreted as regular expressions, so metacharacter
terms can match rows in whose names the term never occurs literally.) -/
theorem search_filter_literal (searchTerm : String) (rows : List Row)
    (hne : (pyStrip searchTerm).isEmpty = false)
    (hmeta : ∀ c ∈ (pyLower searchTerm).toList, isReMeta c = false) :
    searchFilter searchTerm rows
        = rows.filter (fun r =>
            litOccurs (pyLower searchTerm).toList
                (pyLower (getStr r LEGAL_COL)).toList
              || litOccurs (pyLower searchTerm).toList
                (pyLower (getStr r ORG_Y_COL)).toList)
      ∧ ∀ p s : List Char, litOccurs p s = true ↔ ∃ u t, u ++ p ++ t = s := by
  refine ⟨?_, fun p s => litOccurs_iff p s⟩
  have hcond : ¬((pyStrip searchTerm).isEmpty = true) := by simp [hne]
  unfold searchFilter
  rw [if_neg hcond]
  apply List.filter_congr
  intro r _
  have hdot : ∀ c ∈ (pyLower searchTerm).toList, c ≠ '.' := by
    intro c hc he
    have hf := hmeta c hc
    rw [he] at hf
    exact absurd hf (by decide)
  rw [reSearch_all_lit hdot, reSearch_all_lit hdot]

/-- Witness for `search_filter_literal`: searching `"Acme"` over a concrete
row behaves as literal case-insensitive substring search. -/
theorem search_filter_literal_witness :
    searchFilter "Acme" [rowS]
        = [rowS].filter (fun r =>
            litOccurs (pyLower "Acme").toList
                (pyLower (getStr r LEGAL_COL)).toList
              || litOccurs (pyLower "Acme").toList
                (pyLower (getStr r ORG_Y_COL)).toList)
      ∧ ∀ p s : List Char, litOccurs p s = true ↔ ∃ u t, u ++ p ++ t = s :=
  search_filter_literal "Acme" [rowS] (by decide) (by decide)

/-- Counterexample to C6 as stated: the term `"."` is regex-interpreted, so
the filter keeps a row in whose names no literal `"."` occurs. -/
theorem search_regex_dot_cex :
    searchFilter "." [rowC6] = [rowC6]
      ∧ litOccurs (pyLower ".").toList (pyLower (getStr rowC6 LEGAL_COL)).toList
          = false
      ∧ litOccurs (pyLower ".").toList (pyLower (getStr rowC6 ORG_Y_COL)).toList
          = false := by
  decide

/-- C7: appending a Group Registry entry and then deleting with its
identifier selected leaves no row with that identifier. -/
theorem append_then_delete_removes_npi (registry : List GroupRow)
    (entry : GroupRow) :
    (deleteByNpi (appendEntries registry [entry]) [entry.npi]).all
      (fun r => !(r.npi == entry.npi)) = true := by
  simp only [deleteByNpi, appendEntries, List.all_eq_true]
  intro r hr
  have hkeep := List.of_mem_filter hr
  simpa using hkeep

/-- C8: the edit-dates operation is row-count preserving and touches only
the start/end dates of rows whose identifier is selected, leaving all their
other fields, and all unselected rows byte for byte, unchanged. -/
theorem edit_dates_frame (registry : List GroupRow) (npis : List String)
    (s e : String) :
    List.Forall₂ (fun r r' =>
        r'.groupName = r.groupName ∧ r'.npi = r.npi
          ∧ r'.pharmacyName = r.pharmacyName
          ∧ (npis.contains r.npi = false → r' = r)
          ∧ (npis.contains r.npi = true → r'.startDate = s ∧ r'.endDate = e))
      registry (editDates registry npis s e) := by
  induction registry with
  | nil => exact List.Forall₂.nil
  | cons r t ih =>
    simp only [editDates, List.map_cons]
    refine List.Forall₂.cons ?_ ih
    by_cases h : r.npi ∈ npis
    · simp [h]
    · simp [h]

end PharmacyNpi
